import Mathlib

/-!
# Verification of the training-phrase reconciler

Shallow embedding of `Intents.modify_training_phrase_df`
(`src/dfcx_scrapi/core/intents.py`, lines 171-347) and proofs about it.

The routine takes a table of desired actions (columns `display_name`,
`phrase`, `action` with action in {add, delete}) and the current
training-phrase table (columns `name`, `display_name`, `phrase`,
`training_phrase`, `part`, `text`, `parameter_id`, `repeat_count`, `id`),
outer-merges them on `(display_name, phrase)`, classifies the merged rows
into untouched / true addition / false addition / true deletion / false
deletion, materializes new rows for true additions, assembles the updated
table, builds the audit (`actions_taken`) table, and finally restricts the
updated table to intents that had at least one completed action.

Modelling notes, each traced to the source:
* A pandas outer merge produces, for every pair of a left row and a right
  row agreeing on the keys, one combined row; left rows with no key match
  get `NaN` in the right-only columns, and unmatched right rows are
  appended with `NaN` in the left-only columns.  `MergedRow.cur = none`
  models `text` (and every current-side column) being `NaN`;
  `MergedRow.act = none` models `action` being `NaN`.  The claims settled
  here do not depend on the relative order of merged rows.
* `list(set(untouched["name"]))[0]` (line 228) raises `IndexError` when
  `untouched` is empty, and otherwise picks an arbitrary element of the set
  of names; the embedding resolves that arbitrary choice deterministically
  as the first `name` occurring among the untouched rows.  The theorems
  about the chosen name use only facts independent of the choice order
  (membership in the candidate set, sameness across all new rows).
* When all four outcome categories are empty (equivalently: the actions
  table is empty), `actions_taken` is a column-less `pd.DataFrame()` and
  `actions_taken["completed"]` (line 336) raises `KeyError`.
* `actionable_intents` is `list(set(...))`; deduplication and order do not
  matter because the list is only used for membership (`isin`), so the
  embedding keeps the raw list of display names of completed audit rows.
-/

/-- A row of the current (advanced-mode) training-phrase table.
`training_phrase` is the phrase ordinal index, `part` the part index,
`phrase` the full-phrase join key, `text` the literal part text, `name`
the intent protocol identifier and `id` the phrase protocol identifier. -/
structure TPRow where
  name : String
  display_name : String
  phrase : String
  training_phrase : Nat
  part : Nat
  text : String
  parameter_id : String
  repeat_count : Nat
  id : String
deriving DecidableEq, Repr

/-- The `action` column of the actions table: `"add"` or `"delete"`. -/
inductive TPAct where
  | add
  | delete
deriving DecidableEq, Repr

/-- A row of the actions table. -/
structure ActionRow where
  display_name : String
  phrase : String
  action : TPAct
deriving DecidableEq, Repr

/-- A row of `mutations = pd.merge(training_phrase_df, actions,
on=["display_name", "phrase"], how="outer")`.  `cur = none` models the
current-side columns being `NaN` (the action had no matching current row);
`act = none` models the `action` column being `NaN` (the current row had
no matching action). -/
structure MergedRow where
  display_name : String
  phrase : String
  cur : Option TPRow
  act : Option TPAct
deriving DecidableEq, Repr

/-- Whether a current row and an action row agree on the merge keys
`(display_name, phrase)`. -/
def keyMatches (c : TPRow) (a : ActionRow) : Bool :=
  c.display_name == a.display_name && c.phrase == a.phrase

/-- The outer merge of the current table with the actions table on
`(display_name, phrase)`: every current row is paired with each action
sharing its key (or kept alone with `act = none` when no action matches),
and actions matching no current row are appended with `cur = none`. -/
def outerMerge (current : List TPRow) (actions : List ActionRow) :
    List MergedRow :=
  (current.flatMap fun c =>
    if (actions.filter fun a => keyMatches c a).isEmpty then
      [⟨c.display_name, c.phrase, some c, none⟩]
    else (actions.filter fun a => keyMatches c a).map fun a =>
      ⟨c.display_name, c.phrase, some c, some a.action⟩)
  ++ ((actions.filter fun a => current.all fun c => !keyMatches c a).map
      fun a => ⟨a.display_name, a.phrase, none, some a.action⟩)

/-- `untouched = mutations[mutations["action"].isna()]` (line 207). -/
def isUntouched (j : MergedRow) : Bool :=
  j.act.isNone

/-- `(mutations["action"] == "add") & (mutations["text"].isna())`
(lines 210-212). -/
def isTrueAddition (j : MergedRow) : Bool :=
  match j.act, j.cur with
  | some .add, none => true
  | _, _ => false

/-- `(mutations["action"] == "add") & (~mutations["text"].isna())`
(lines 213-215). -/
def isFalseAddition (j : MergedRow) : Bool :=
  match j.act, j.cur with
  | some .add, some _ => true
  | _, _ => false

/-- `(mutations["action"] == "delete") & (~mutations["text"].isna())`
(lines 246-248). -/
def isTrueDeletion (j : MergedRow) : Bool :=
  match j.act, j.cur with
  | some .delete, some _ => true
  | _, _ => false

/-- `(mutations["action"] == "delete") & (mutations["text"].isna())`
(lines 249-251). -/
def isFalseDeletion (j : MergedRow) : Bool :=
  match j.act, j.cur with
  | some .delete, none => true
  | _, _ => false

/-- The merged table of a call (`mutations`, line 199). -/
def mergedOf (actions : List ActionRow) (current : List TPRow) :
    List MergedRow :=
  outerMerge current actions

/-- The untouched rows of a call. -/
def untouchedOf (actions : List ActionRow) (current : List TPRow) :
    List MergedRow :=
  (mergedOf actions current).filter isUntouched

/-- The true-addition rows of a call. -/
def trueAddsOf (actions : List ActionRow) (current : List TPRow) :
    List MergedRow :=
  (mergedOf actions current).filter isTrueAddition

/-- The false-addition rows of a call. -/
def falseAddsOf (actions : List ActionRow) (current : List TPRow) :
    List MergedRow :=
  (mergedOf actions current).filter isFalseAddition

/-- The true-deletion rows of a call. -/
def trueDelsOf (actions : List ActionRow) (current : List TPRow) :
    List MergedRow :=
  (mergedOf actions current).filter isTrueDeletion

/-- The false-deletion rows of a call. -/
def falseDelsOf (actions : List ActionRow) (current : List TPRow) :
    List MergedRow :=
  (mergedOf actions current).filter isFalseDeletion

/-- The candidate owning-intent names: the `name` column of the untouched
rows (`untouched["name"]`, line 228). -/
def untouchedNames (untouched : List MergedRow) : List String :=
  untouched.filterMap fun j => j.cur.map (·.name)

/-- `list(set(untouched["name"]))[0]` (line 228): an arbitrary element of
the names among the untouched rows, here resolved as the first one; `none`
models the `IndexError` raised on an empty untouched set. -/
def chooseName (untouched : List MergedRow) : Option String :=
  (untouchedNames untouched).head?

/-- `untouched["training_phrase"].max()` (line 230), as a fold over the
untouched rows' ordinal indices (the value is only used when `untouched`
is nonempty). -/
def maxTP (untouched : List MergedRow) : Nat :=
  (untouched.filterMap fun j => j.cur.map (·.training_phrase)).foldl max 0

/-- `maxTP` of the untouched rows of a call. -/
def maxTPOf (actions : List ActionRow) (current : List TPRow) : Nat :=
  maxTP (untouchedOf actions current)

/-- One materialized true-addition row (lines 228-242): the chosen intent
name, the join keys, a fresh ordinal index, part index 0, the phrase as
the literal text, no parameter binding, repeat count 1, empty phrase
protocol identifier. -/
def materialize (nm : String) (j : MergedRow) (idx : Nat) : TPRow :=
  { name := nm
    display_name := j.display_name
    phrase := j.phrase
    training_phrase := idx
    part := 0
    text := j.phrase
    parameter_id := ""
    repeat_count := 1
    id := "" }

/-- The materialized true-addition rows: the true-addition join rows
paired, in order, with the contiguous fresh indices
`range(next_tp_id, last_tp_id + 1) = [mx+1, ..., mx+k]` (lines 230-242). -/
def newRowsOf (nm : String) (mx : Nat) (tas : List MergedRow) :
    List TPRow :=
  (tas.zip (List.range' (mx + 1) tas.length)).map fun p =>
    materialize nm p.1 p.2

/-- A row of the `actions_taken` audit table, projected to the columns the
routine fills in (lines 266-333): the join keys, the `completed` flag, the
category label and the templated outcome message. -/
structure AuditRow where
  display_name : String
  phrase : String
  completed : Nat
  category : String
  outcome : String
deriving DecidableEq, Repr

/-- Audit row of a true addition (lines 267-282). -/
def mkTrueAddAudit (j : MergedRow) : AuditRow :=
  { display_name := j.display_name
    phrase := j.phrase
    completed := 1
    category := "true addition"
    outcome := j.phrase ++ " added to " ++ j.display_name }

/-- Audit row of a false addition (lines 284-299). -/
def mkFalseAddAudit (j : MergedRow) : AuditRow :=
  { display_name := j.display_name
    phrase := j.phrase
    completed := 0
    category := "false addition"
    outcome := j.phrase ++ " already in " ++ j.display_name }

/-- Audit row of a true deletion (lines 301-316). -/
def mkTrueDelAudit (j : MergedRow) : AuditRow :=
  { display_name := j.display_name
    phrase := j.phrase
    completed := 1
    category := "true deletion"
    outcome := j.phrase ++ " removed from " ++ j.display_name }

/-- Audit row of a false deletion (lines 318-333). -/
def mkFalseDelAudit (j : MergedRow) : AuditRow :=
  { display_name := j.display_name
    phrase := j.phrase
    completed := 0
    category := "false deletion"
    outcome := j.phrase ++ " not found in " ++ j.display_name }

/-- The whole `actions_taken` table, concatenated in the source's order:
true additions, false additions, true deletions, false deletions
(lines 266-333). -/
def auditAll (actions : List ActionRow) (current : List TPRow) :
    List AuditRow :=
  (trueAddsOf actions current).map mkTrueAddAudit
    ++ (falseAddsOf actions current).map mkFalseAddAudit
    ++ (trueDelsOf actions current).map mkTrueDelAudit
    ++ (falseDelsOf actions current).map mkFalseDelAudit

/-- The updated table before the actionable-intent restriction:
`untouched`, then `false_additions`, then the materialized
`true_additions` (lines 253-261). -/
def assembledOf (nm : String) (actions : List ActionRow)
    (current : List TPRow) : List TPRow :=
  (untouchedOf actions current).filterMap (·.cur)
    ++ (falseAddsOf actions current).filterMap (·.cur)
    ++ newRowsOf nm (maxTPOf actions current) (trueAddsOf actions current)

/-- `actionable_intents`: the display names of completed audit rows
(lines 335-337); the source deduplicates with `set`, which is
membership-equivalent. -/
def actionableOf (actions : List ActionRow) (current : List TPRow) :
    List String :=
  ((auditAll actions current).filter fun t => t.completed == 1).map
    (·.display_name)

/-- The final updated table: the assembled table restricted to intents with
at least one completed action (lines 339-341). -/
def updatedOf (nm : String) (actions : List ActionRow)
    (current : List TPRow) : List TPRow :=
  (assembledOf nm actions current).filter fun r =>
    (actionableOf actions current).contains r.display_name

/-- The failure modes of the routine: `indexError` models the `IndexError`
of `list(set(untouched["name"]))[0]` on an empty untouched set (line 228);
`keyError` models the `KeyError` of `actions_taken["completed"]` on the
column-less empty audit table (line 336). -/
inductive ReconcileError where
  | indexError
  | keyError
deriving DecidableEq, Repr

/-- The pair of output tables. -/
structure ReconcileResult where
  updated : List TPRow
  audit : List AuditRow
deriving DecidableEq, Repr

/-- The embedding of `Intents.modify_training_phrase_df`: merge, classify,
materialize, assemble, audit and restrict — or fail the way the source
does (`IndexError` first, at line 228, then `KeyError` at line 336). -/
def reconcile (actions : List ActionRow) (current : List TPRow) :
    Except ReconcileError ReconcileResult :=
  match chooseName (untouchedOf actions current) with
  | none => .error .indexError
  | some nm =>
    if (auditAll actions current).isEmpty then .error .keyError
    else .ok ⟨updatedOf nm actions current, auditAll actions current⟩

/-- How many of the five outcome categories a merged row falls into. -/
def categoryCount (j : MergedRow) : Nat :=
  (isUntouched j).toNat + (isTrueAddition j).toNat + (isFalseAddition j).toNat
    + (isTrueDeletion j).toNat + (isFalseDeletion j).toNat

/-! ### Concrete inputs used by the claim scenarios, counterexamples and
witnesses -/

/-- Current row: intent `Greeting`, ordinal index 0, part 0, text `hi`. -/
def g6hi : TPRow := ⟨"pG", "Greeting", "hi", 0, 0, "hi", "", 1, "idhi"⟩

/-- The current table of the spec's first scenario (claim C6). -/
def c6cur : List TPRow := [g6hi]

/-- The actions of the spec's first scenario (claim C6): delete `hi` from
`Greeting`, add `yo` to `Greeting`. -/
def c6acts : List ActionRow :=
  [⟨"Greeting", "hi", .delete⟩, ⟨"Greeting", "yo", .add⟩]

/-- Current row: intent `X`, index 0, text `hi`. -/
def w7hi : TPRow := ⟨"pX", "X", "hi", 0, 0, "hi", "", 1, "idhi"⟩

/-- Current row: intent `X`, index 1, text `bye`. -/
def w7bye : TPRow := ⟨"pX2", "X", "bye", 1, 0, "bye", "", 1, "idbye"⟩

/-- A well-behaved input: one untouched row, one true addition, one true
deletion, all in intent `X`. -/
def w7cur : List TPRow := [w7hi, w7bye]

/-- Actions for `w7cur`: add `yo` (true addition), delete `bye` (true
deletion). -/
def w7acts : List ActionRow := [⟨"X", "yo", .add⟩, ⟨"X", "bye", .delete⟩]

/-- The row materialized for the true addition of `w7acts` on `w7cur`. -/
def w7yoNew : TPRow := ⟨"pX", "X", "yo", 1, 0, "yo", "", 1, ""⟩

/-- The first output of `reconcile w7acts w7cur`, written out. -/
def w7out1 : ReconcileResult :=
  ⟨[w7hi, w7yoNew],
   [⟨"X", "yo", 1, "true addition", "yo added to X"⟩,
    ⟨"X", "bye", 1, "true deletion", "bye removed from X"⟩]⟩

/-- The output of rerunning `w7acts` on the first run's updated table. -/
def w7out2 : ReconcileResult :=
  ⟨[],
   [⟨"X", "yo", 0, "false addition", "yo already in X"⟩,
    ⟨"X", "bye", 0, "false deletion", "bye not found in X"⟩]⟩

/-- Current rows for the C2 counterexample: intent `X` holds indices 0
(`hi`) and 1 (`bye`). -/
def c2cur : List TPRow :=
  [⟨"pX", "X", "hi", 0, 0, "hi", "", 1, "idhi"⟩,
   ⟨"pX", "X", "bye", 1, 0, "bye", "", 1, "idbye"⟩]

/-- Actions for the C2 counterexample: re-add the existing `bye` (a false
addition, which removes index 1 from the untouched set) and add `yo`. -/
def c2acts : List ActionRow := [⟨"X", "bye", .add⟩, ⟨"X", "yo", .add⟩]

/-- Current rows for the C5 counterexample: one two-part phrase
`hi there` (both parts share the join key) plus an untouched `yo`. -/
def c5cur : List TPRow :=
  [⟨"pX", "X", "hi there", 0, 0, "hi ", "", 1, "ida"⟩,
   ⟨"pX", "X", "hi there", 0, 1, "there", "", 1, "idb"⟩,
   ⟨"pX", "X", "yo", 1, 0, "yo", "", 1, "idc"⟩]

/-- The single action of the C5 counterexample. -/
def c5acts : List ActionRow := [⟨"X", "hi there", .delete⟩]

/-- Current rows for the C7/C9 counterexamples: `X` owns `hi`, `Y` owns
`yo` (and `bye` in the C7 case). -/
def c9cur : List TPRow :=
  [⟨"pX", "X", "hi", 0, 0, "hi", "", 1, "idhi"⟩,
   ⟨"pY", "Y", "yo", 0, 0, "yo", "", 1, "idyo"⟩]

/-- The single no-op action of the C9 counterexample: re-add the existing
`hi`. -/
def c9acts : List ActionRow := [⟨"X", "hi", .add⟩]

/-- Current rows for the C7 counterexample. -/
def c7cur : List TPRow :=
  [⟨"pX", "X", "hi", 0, 0, "hi", "", 1, "idhi"⟩,
   ⟨"pY", "Y", "yo", 0, 0, "yo", "", 1, "idyo"⟩,
   ⟨"pY", "Y", "bye", 1, 0, "bye", "", 1, "idbye"⟩]

/-- Actions for the C7 counterexample: a false addition on intent `X` and
a true deletion on intent `Y`. -/
def c7acts : List ActionRow := [⟨"X", "hi", .add⟩, ⟨"Y", "bye", .delete⟩]

/-- The updated table the first C7 run returns: intent `X` was dropped by
the actionable-intent restriction, keeping only `Y`'s untouched row. -/
def c7mid : List TPRow := [⟨"pY", "Y", "yo", 0, 0, "yo", "", 1, "idyo"⟩]

/-- Current rows for the C3/C10 examples: two untouched intents with
distinct protocol names. -/
def e3cur : List TPRow :=
  [⟨"pX", "X", "hi", 0, 0, "hi", "", 1, "i1"⟩,
   ⟨"pY", "Y", "yo", 0, 0, "yo", "", 1, "i2"⟩]

/-- A single true addition on a third intent `Z`. -/
def e3acts : List ActionRow := [⟨"Z", "new", .add⟩]

/-- Actions deleting the only current row, which empties the untouched
set. -/
def e1acts : List ActionRow := [⟨"Greeting", "hi", .delete⟩]

/-! ### Structure of the outer merge -/

/-- Every merged row is either a current row paired with its (absent or
present) matching action, or an action matched by no current row. -/
theorem mem_outerMerge {current : List TPRow} {actions : List ActionRow}
    {j : MergedRow} (h : j ∈ outerMerge current actions) :
    (∃ c ∈ current, j.display_name = c.display_name ∧ j.phrase = c.phrase
      ∧ j.cur = some c
      ∧ ((j.act = none ∧ ∀ a ∈ actions, keyMatches c a = false)
         ∨ (∃ a ∈ actions, keyMatches c a = true ∧ j.act = some a.action)))
    ∨ (∃ a ∈ actions, j.display_name = a.display_name ∧ j.phrase = a.phrase
        ∧ j.cur = none ∧ j.act = some a.action
        ∧ ∀ c ∈ current, keyMatches c a = false) := by
  rw [outerMerge, List.mem_append] at h
  rcases h with h | h
  · rw [List.mem_flatMap] at h
    obtain ⟨c, hc, hj⟩ := h
    left
    refine ⟨c, hc, ?_⟩
    cases hms : (actions.filter fun a => keyMatches c a).isEmpty with
    | true =>
      rw [hms] at hj
      simp only [if_true, List.mem_singleton] at hj
      subst hj
      refine ⟨rfl, rfl, rfl, Or.inl ⟨rfl, ?_⟩⟩
      rw [List.isEmpty_iff, List.filter_eq_nil_iff] at hms
      intro a ha
      simpa using hms a ha
    | false =>
      rw [hms] at hj
      simp only [Bool.false_eq_true, if_false, List.mem_map] at hj
      obtain ⟨a, ha, hja⟩ := hj
      rw [List.mem_filter] at ha
      subst hja
      exact ⟨rfl, rfl, rfl, Or.inr ⟨a, ha.1, ha.2, rfl⟩⟩
  · rw [List.mem_map] at h
    obtain ⟨a, ha, hja⟩ := h
    rw [List.mem_filter, List.all_eq_true] at ha
    subst hja
    right
    refine ⟨a, ha.1, rfl, rfl, rfl, rfl, fun c hc => ?_⟩
    simpa using ha.2 c hc

/-- A current row with a matching action yields the paired merged row. -/
theorem pair_mem_outerMerge {current : List TPRow} {actions : List ActionRow}
    {c : TPRow} {a : ActionRow} (hc : c ∈ current) (ha : a ∈ actions)
    (hm : keyMatches c a = true) :
    (⟨c.display_name, c.phrase, some c, some a.action⟩ : MergedRow)
      ∈ outerMerge current actions := by
  rw [outerMerge, List.mem_append]
  left
  rw [List.mem_flatMap]
  refine ⟨c, hc, ?_⟩
  have hmem : a ∈ actions.filter fun a => keyMatches c a :=
    List.mem_filter.mpr ⟨ha, hm⟩
  have hne : (actions.filter fun a => keyMatches c a).isEmpty = false := by
    rw [List.isEmpty_eq_false]
    exact List.ne_nil_of_mem hmem
  rw [hne]
  simp only [Bool.false_eq_true, if_false, List.mem_map]
  exact ⟨a, hmem, rfl⟩

/-- A current row matched by no action yields the untouched merged row. -/
theorem untouched_mem_outerMerge {current : List TPRow}
    {actions : List ActionRow} {c : TPRow} (hc : c ∈ current)
    (hall : ∀ a ∈ actions, keyMatches c a = false) :
    (⟨c.display_name, c.phrase, some c, none⟩ : MergedRow)
      ∈ outerMerge current actions := by
  rw [outerMerge, List.mem_append]
  left
  rw [List.mem_flatMap]
  refine ⟨c, hc, ?_⟩
  have hms : (actions.filter fun a => keyMatches c a).isEmpty = true := by
    rw [List.isEmpty_iff, List.filter_eq_nil_iff]
    intro a ha
    simp [hall a ha]
  simp [hms]

/-- An action matched by no current row yields the unmatched merged row. -/
theorem unmatched_mem_outerMerge {current : List TPRow}
    {actions : List ActionRow} {a : ActionRow} (ha : a ∈ actions)
    (hall : ∀ c ∈ current, keyMatches c a = false) :
    (⟨a.display_name, a.phrase, none, some a.action⟩ : MergedRow)
      ∈ outerMerge current actions := by
  rw [outerMerge, List.mem_append]
  right
  rw [List.mem_map]
  refine ⟨a, ?_, rfl⟩
  rw [List.mem_filter, List.all_eq_true]
  exact ⟨ha, fun c hc => by simp [hall c hc]⟩

/-- In the merge result, a row with no action always carries a current
row (a pandas outer merge never produces an all-`NaN` row). -/
theorem cur_isSome_of_act_none {current : List TPRow}
    {actions : List ActionRow} {j : MergedRow}
    (h : j ∈ outerMerge current actions) (hact : j.act = none) :
    j.cur.isSome = true := by
  rcases mem_outerMerge h with ⟨c, _, _, _, hcur, _⟩ | ⟨a, _, _, _, _, hsome, _⟩
  · rw [hcur]; rfl
  · rw [hact] at hsome; cases hsome

/-! ### Failure characterization -/

/-- The intent-name lookup of line 228 fails exactly on an empty untouched
set: every untouched row carries a current row, hence a name. -/
theorem chooseName_eq_none_iff {actions : List ActionRow}
    {current : List TPRow} :
    chooseName (untouchedOf actions current) = none
      ↔ untouchedOf actions current = [] := by
  rw [chooseName, List.head?_eq_none_iff]
  constructor
  · intro h
    rw [untouchedNames, List.filterMap_eq_nil_iff] at h
    rw [List.eq_nil_iff_forall_not_mem]
    intro j hj
    rw [untouchedOf, List.mem_filter] at hj
    have hsome : j.cur.isSome = true :=
      cur_isSome_of_act_none hj.1 (by
        have := hj.2
        rw [isUntouched, Option.isNone_iff_eq_none] at this
        exact this)
    have := h j (List.mem_filter.mpr hj)
    cases hcur : j.cur with
    | none => rw [hcur] at hsome; cases hsome
    | some c => rw [hcur] at this; cases this
  · intro h
    rw [h]
    rfl

/-- The audit table is empty exactly when the actions table is empty. -/
theorem auditAll_eq_nil_iff {actions : List ActionRow}
    {current : List TPRow} :
    auditAll actions current = [] ↔ actions = [] := by
  constructor
  · intro h
    rw [auditAll] at h
    have h4 := List.append_eq_nil.mp h
    have h3 := List.append_eq_nil.mp h4.1
    have h2 := List.append_eq_nil.mp h3.1
    have hta := List.map_eq_nil_iff.mp h2.1
    have hfa := List.map_eq_nil_iff.mp h2.2
    have htd := List.map_eq_nil_iff.mp h3.2
    have hfd := List.map_eq_nil_iff.mp h4.2
    cases hacts : actions with
    | nil => rfl
    | cons a rest =>
      exfalso
      have ha : a ∈ actions := by rw [hacts]; exact List.mem_cons_self a rest
      by_cases hmatch : ∃ c ∈ current, keyMatches c a = true
      · obtain ⟨c, hc, hm⟩ := hmatch
        have hj := pair_mem_outerMerge hc ha hm
        cases hact : a.action with
        | add =>
          have : (⟨c.display_name, c.phrase, some c, some a.action⟩ :
              MergedRow) ∈ falseAddsOf actions current := by
            rw [falseAddsOf, List.mem_filter]
            exact ⟨hj, by simp [isFalseAddition, hact]⟩
          rw [hfa] at this
          cases this
        | delete =>
          have : (⟨c.display_name, c.phrase, some c, some a.action⟩ :
              MergedRow) ∈ trueDelsOf actions current := by
            rw [trueDelsOf, List.mem_filter]
            exact ⟨hj, by simp [isTrueDeletion, hact]⟩
          rw [htd] at this
          cases this
      · have hall : ∀ c ∈ current, keyMatches c a = false := by
          intro c hc
          cases hkm : keyMatches c a with
          | true => exact absurd ⟨c, hc, hkm⟩ hmatch
          | false => rfl
        have hj := unmatched_mem_outerMerge ha hall
        cases hact : a.action with
        | add =>
          have : (⟨a.display_name, a.phrase, none, some a.action⟩ :
              MergedRow) ∈ trueAddsOf actions current := by
            rw [trueAddsOf, List.mem_filter]
            exact ⟨hj, by simp [isTrueAddition, hact]⟩
          rw [hta] at this
          cases this
        | delete =>
          have : (⟨a.display_name, a.phrase, none, some a.action⟩ :
              MergedRow) ∈ falseDelsOf actions current := by
            rw [falseDelsOf, List.mem_filter]
            exact ⟨hj, by simp [isFalseDeletion, hact]⟩
          rw [hfd] at this
          cases this
  · intro h
    subst h
    have hmerge : ∀ j ∈ mergedOf [] current, j.act = none := by
      intro j hj
      rcases mem_outerMerge hj with ⟨c, _, _, _, _, hbr⟩ | ⟨a, ha, _⟩
      · rcases hbr with ⟨hnone, _⟩ | ⟨a, ha, _⟩
        · exact hnone
        · cases ha
      · cases ha
    rw [auditAll]
    have hta : trueAddsOf [] current = [] := by
      rw [trueAddsOf, List.filter_eq_nil_iff]
      intro j hj
      simp [isTrueAddition, hmerge j hj]
    have hfa : falseAddsOf [] current = [] := by
      rw [falseAddsOf, List.filter_eq_nil_iff]
      intro j hj
      simp [isFalseAddition, hmerge j hj]
    have htd : trueDelsOf [] current = [] := by
      rw [trueDelsOf, List.filter_eq_nil_iff]
      intro j hj
      simp [isTrueDeletion, hmerge j hj]
    have hfd : falseDelsOf [] current = [] := by
      rw [falseDelsOf, List.filter_eq_nil_iff]
      intro j hj
      simp [isFalseDeletion, hmerge j hj]
    rw [hta, hfa, htd, hfd]
    rfl

/-- Inversion of a successful call: the chosen name exists, the audit is
nonempty, and the outputs are the assembled-and-restricted updated table
and the audit table. -/
theorem reconcile_ok_elim {actions : List ActionRow} {current : List TPRow}
    {out : ReconcileResult} (h : reconcile actions current = .ok out) :
    ∃ nm, chooseName (untouchedOf actions current) = some nm
      ∧ (auditAll actions current).isEmpty = false
      ∧ out = ⟨updatedOf nm actions current, auditAll actions current⟩ := by
  rw [reconcile] at h
  cases hch : chooseName (untouchedOf actions current) with
  | none => rw [hch] at h; cases h
  | some nm =>
    rw [hch] at h
    cases hemp : (auditAll actions current).isEmpty with
    | true => rw [hemp] at h; simp at h
    | false =>
      rw [hemp] at h
      simp only [Bool.false_eq_true, if_false, Except.ok.injEq] at h
      exact ⟨nm, rfl, rfl, h.symm⟩

/-- A call fails exactly when the untouched set is empty (`IndexError`,
line 228) or the actions table is empty (`KeyError`, line 336). -/
theorem reconcile_error_iff {actions : List ActionRow}
    {current : List TPRow} :
    (∀ out, reconcile actions current ≠ .ok out)
      ↔ untouchedOf actions current = [] ∨ actions = [] := by
  constructor
  · intro h
    cases hch : chooseName (untouchedOf actions current) with
    | none => exact Or.inl (chooseName_eq_none_iff.mp hch)
    | some nm =>
      cases hemp : (auditAll actions current).isEmpty with
      | true =>
        exact Or.inr (auditAll_eq_nil_iff.mp (List.isEmpty_iff.mp hemp))
      | false =>
        exfalso
        apply h ⟨updatedOf nm actions current, auditAll actions current⟩
        rw [reconcile, hch, hemp]
        simp
  · intro h out hok
    obtain ⟨nm, hch, hemp, _⟩ := reconcile_ok_elim hok
    rcases h with h | h
    · rw [chooseName_eq_none_iff.mpr h] at hch
      cases hch
    · rw [List.isEmpty_eq_false] at hemp
      exact hemp (auditAll_eq_nil_iff.mpr h)

/-! ### Index allocation -/

/-- The seed of a `foldl max` bounds the result from below. -/
theorem init_le_foldl_max (l : List Nat) (a : Nat) : a ≤ l.foldl max a := by
  induction l generalizing a with
  | nil => exact le_refl a
  | cons y t ih => exact le_trans (le_max_left a y) (ih (max a y))

/-- Every element of a list is bounded by `foldl max` over it. -/
theorem le_foldl_max (l : List Nat) (a : Nat) :
    ∀ x ∈ l, x ≤ l.foldl max a := by
  induction l generalizing a with
  | nil => intro x hx; cases hx
  | cons y t ih =>
    intro x hx
    rcases List.mem_cons.mp hx with rfl | hx
    · exact le_trans (le_max_right a x) (init_le_foldl_max t (max a x))
    · exact ih (max a y) x hx

/-- The fresh indices, in order: `newRowsOf` enumerates exactly
`[mx+1, ..., mx + tas.length]`. -/
theorem newRowsOf_map_tp (nm : String) (mx : Nat) (tas : List MergedRow) :
    (newRowsOf nm mx tas).map (·.training_phrase)
      = List.range' (mx + 1) tas.length := by
  rw [newRowsOf, List.map_map]
  have : ((fun r : TPRow => r.training_phrase)
      ∘ fun p : MergedRow × Nat => materialize nm p.1 p.2)
      = fun p : MergedRow × Nat => p.2 := rfl
  rw [this]
  have hlen : (List.range' (mx + 1) tas.length).length ≤ tas.length := by
    rw [List.length_range']
  calc (tas.zip (List.range' (mx + 1) tas.length)).map (fun p => p.2)
      = (tas.zip (List.range' (mx + 1) tas.length)).map Prod.snd := rfl
    _ = List.range' (mx + 1) tas.length := List.map_snd_zip _ _ hlen

/-- One materialized row per true-addition row. -/
theorem newRowsOf_length (nm : String) (mx : Nat) (tas : List MergedRow) :
    (newRowsOf nm mx tas).length = tas.length := by
  rw [newRowsOf, List.length_map, List.length_zip, List.length_range']
  exact min_self _

/-- Each materialized row comes from a true-addition row and an index of
the fresh contiguous block. -/
theorem mem_newRowsOf {nm : String} {mx : Nat} {tas : List MergedRow}
    {r : TPRow} (h : r ∈ newRowsOf nm mx tas) :
    ∃ j ∈ tas, ∃ i, mx + 1 ≤ i ∧ i < mx + 1 + tas.length
      ∧ r = materialize nm j i := by
  rw [newRowsOf, List.mem_map] at h
  obtain ⟨p, hp, hr⟩ := h
  obtain ⟨hp1, hp2⟩ := List.of_mem_zip hp
  rw [List.mem_range'] at hp2
  obtain ⟨i, hi, hpi⟩ := hp2
  exact ⟨p.1, hp1, p.2, by omega, by omega, hr.symm⟩

/-- Each true-addition row has a materialized row with its join keys. -/
theorem newRowsOf_covers {nm : String} {mx : Nat} {tas : List MergedRow}
    {j : MergedRow} (h : j ∈ tas) :
    ∃ r ∈ newRowsOf nm mx tas,
      r.display_name = j.display_name ∧ r.phrase = j.phrase := by
  obtain ⟨k, hk, rfl⟩ := List.mem_iff_get.mp h
  have hkz : (k : Nat) < (tas.zip (List.range' (mx + 1) tas.length)).length := by
    rw [List.length_zip, List.length_range']
    simp [k.isLt]
  refine ⟨materialize nm (tas.get k)
      ((List.range' (mx + 1) tas.length).get ⟨k, by
        rw [List.length_range']; exact k.isLt⟩), ?_, rfl, rfl⟩
  rw [newRowsOf, List.mem_map]
  refine ⟨(tas.zip (List.range' (mx + 1) tas.length)).get ⟨k, hkz⟩, ?_, ?_⟩
  · exact List.get_mem _ _ _
  · have hz := @List.getElem_zip _ _ tas
      (List.range' (mx + 1) tas.length) (k : Nat) hkz
    simp only [List.get_eq_getElem, hz]

/-! ### Counting helpers -/

/-- Sums distribute over pointwise addition of mapped functions. -/
theorem sum_map_add {α : Type} (l : List α) (f g : α → Nat) :
    (l.map fun x => f x + g x).sum = (l.map f).sum + (l.map g).sum := by
  induction l with
  | nil => rfl
  | cons x t ih =>
    simp only [List.map_cons, List.sum_cons, ih]
    omega

/-- A sum of mapped indicator values is a `countP`. -/
theorem sum_map_indicator {α : Type} (l : List α) (p : α → Bool) :
    (l.map fun x => if p x then 1 else 0).sum = l.countP p := by
  induction l with
  | nil => rfl
  | cons x t ih =>
    rw [List.map_cons, List.sum_cons, List.countP_cons, ih]
    omega

/-- A sum of mapped values that are all 1 is the length. -/
theorem sum_map_one {α : Type} (l : List α) (f : α → Nat)
    (h : ∀ x ∈ l, f x = 1) : (l.map f).sum = l.length := by
  induction l with
  | nil => rfl
  | cons x t ih =>
    rw [List.map_cons, List.sum_cons, List.length_cons,
      h x (List.mem_cons_self x t),
      ih fun y hy => h y (List.mem_cons_of_mem x hy)]
    omega

/-- Four pointwise-disjoint category counts add up to the count of their
pointwise union. -/
theorem countP_four_partition {α : Type} (l : List α)
    (p1 p2 p3 p4 q : α → Bool)
    (h : ∀ x ∈ l, (p1 x).toNat + (p2 x).toNat + (p3 x).toNat + (p4 x).toNat
      = (q x).toNat) :
    l.countP p1 + l.countP p2 + l.countP p3 + l.countP p4 = l.countP q := by
  induction l with
  | nil => rfl
  | cons x t ih =>
    have hx := h x (List.mem_cons_self x t)
    have iht := ih fun y hy => h y (List.mem_cons_of_mem x hy)
    have e1 : ∀ (b : Bool), (if b = true then 1 else 0) = b.toNat := by
      intro b
      cases b <;> rfl
    simp only [List.countP_cons, e1]
    omega

/-- The current-side half of the merge contributes, per current row, its
number of matching actions to the actioned-row count. -/
theorem countP_actioned_flatMap (current : List TPRow)
    (actions : List ActionRow) :
    (current.flatMap fun c =>
      if (actions.filter fun a => keyMatches c a).isEmpty then
        [(⟨c.display_name, c.phrase, some c, none⟩ : MergedRow)]
      else (actions.filter fun a => keyMatches c a).map fun a =>
        ⟨c.display_name, c.phrase, some c, some a.action⟩).countP
          (fun j => j.act.isSome)
      = (current.map fun c => actions.countP fun a => keyMatches c a).sum := by
  induction current with
  | nil => rfl
  | cons c t ih =>
    rw [List.flatMap_cons, List.countP_append, ih, List.map_cons,
      List.sum_cons]
    congr 1
    cases hms : (actions.filter fun a => keyMatches c a).isEmpty with
    | true =>
      rw [if_pos rfl]
      have hz : (([(⟨c.display_name, c.phrase, some c, none⟩ : MergedRow)]).countP
          fun j => j.act.isSome) = 0 := rfl
      rw [hz, List.countP_eq_length_filter, List.isEmpty_iff.mp hms]
      rfl
    | false =>
      simp only [Bool.false_eq_true, if_false, List.countP_map]
      have hcomp : ((fun j : MergedRow => j.act.isSome) ∘ fun a : ActionRow =>
          (⟨c.display_name, c.phrase, some c, some a.action⟩ : MergedRow))
          = fun _ => true := rfl
      rw [hcomp, List.countP_true, List.countP_eq_length_filter]

/-- Double counting: summing match counts over current rows equals summing
them over actions. -/
theorem sum_countP_swap (current : List TPRow) (actions : List ActionRow) :
    (current.map fun c => actions.countP fun a => keyMatches c a).sum
      = (actions.map fun a => current.countP fun c => keyMatches c a).sum := by
  induction actions with
  | nil =>
    simp [List.countP_nil]
  | cons a as ih =>
    rw [List.map_cons, List.sum_cons, ← ih]
    have hsplit : (current.map fun c => (a :: as).countP fun x => keyMatches c x)
        = current.map fun c =>
            (as.countP fun x => keyMatches c x)
              + (if keyMatches c a then 1 else 0) := by
      apply List.map_congr_left
      intro c _
      rw [List.countP_cons]
    rw [hsplit, sum_map_add, sum_map_indicator]
    omega

/-- The number of merged rows carrying an action: each action contributes
its number of key matches among current rows, or one row when unmatched. -/
theorem countP_actioned_outerMerge (current : List TPRow)
    (actions : List ActionRow) :
    (outerMerge current actions).countP (fun j => j.act.isSome)
      = (actions.map fun a =>
          max 1 (current.countP fun c => keyMatches c a)).sum := by
  rw [outerMerge, List.countP_append, countP_actioned_flatMap, sum_countP_swap]
  have hright : (((actions.filter fun a =>
      current.all fun c => !keyMatches c a).map
      fun a => (⟨a.display_name, a.phrase, none, some a.action⟩ :
        MergedRow)).countP fun j => j.act.isSome)
      = actions.countP fun a => current.all fun c => !keyMatches c a := by
    rw [List.countP_map]
    have hcomp : ((fun j : MergedRow => j.act.isSome) ∘ fun a : ActionRow =>
        (⟨a.display_name, a.phrase, none, some a.action⟩ : MergedRow))
        = fun _ => true := rfl
    rw [hcomp, List.countP_true, List.countP_eq_length_filter]
  rw [hright,
    ← sum_map_indicator actions fun a => current.all fun c => !keyMatches c a,
    ← sum_map_add]
  apply congrArg
  apply List.map_congr_left
  intro a _
  cases hall : current.all fun c => !keyMatches c a with
  | true =>
    have h0 : (current.countP fun c => keyMatches c a) = 0 := by
      rw [List.countP_eq_zero]
      intro c hc
      simpa using List.all_eq_true.mp hall c hc
    rw [h0]
    simp
  | false =>
    have hpos : 0 < current.countP fun c => keyMatches c a := by
      rw [List.countP_pos_iff]
      obtain ⟨c, hc, hkm⟩ := List.all_eq_false.mp hall
      exact ⟨c, hc, by simpa using hkm⟩
    simp only [Bool.false_eq_true, if_false]
    omega

/-! ### Permutation helpers -/

/-- A Boolean whose numeric value is 0 is `false`. -/
theorem toNat_zero_eq_false : ∀ b : Bool, b.toNat = 0 → b = false := by
  decide

/-- Restricting to rows with a present current row first does not change
the `filterMap` of the current-row projection. -/
theorem filterMap_cur_filter_isSome (l : List MergedRow) :
    (l.filter fun j => j.cur.isSome).filterMap (·.cur)
      = l.filterMap (·.cur) := by
  induction l with
  | nil => rfl
  | cons j t ih =>
    cases hc : j.cur with
    | none =>
      rw [List.filter_cons_of_neg (by simp [hc]), List.filterMap_cons]
      simp only [hc, ih]
    | some c =>
      rw [List.filter_cons_of_pos (by simp [hc]), List.filterMap_cons,
        List.filterMap_cons]
      simp only [hc, ih]

/-- Three pointwise-disjoint categories that exactly cover a predicate
give a permutation of its filter. -/
theorem filter_three_partition_perm {α : Type} (l : List α)
    (p1 p2 p3 q : α → Bool)
    (h : ∀ x ∈ l, (p1 x).toNat + (p2 x).toNat + (p3 x).toNat = (q x).toNat) :
    (l.filter p1 ++ l.filter p2 ++ l.filter p3).Perm (l.filter q) := by
  induction l with
  | nil => exact List.Perm.refl _
  | cons x t ih =>
    have hx := h x (List.mem_cons_self x t)
    have iht := ih fun y hy => h y (List.mem_cons_of_mem x hy)
    cases hq : q x with
    | false =>
      rw [hq] at hx
      simp only [Bool.toNat_false] at hx
      have h1 : p1 x = false := toNat_zero_eq_false _ (by omega)
      have h2 : p2 x = false := toNat_zero_eq_false _ (by omega)
      have h3 : p3 x = false := toNat_zero_eq_false _ (by omega)
      rw [List.filter_cons_of_neg (by simp [h1]),
        List.filter_cons_of_neg (by simp [h2]),
        List.filter_cons_of_neg (by simp [h3]),
        List.filter_cons_of_neg (by simp [hq])]
      exact iht
    | true =>
      rw [hq] at hx
      simp only [Bool.toNat_true] at hx
      rw [List.filter_cons_of_pos hq]
      cases hp1 : p1 x with
      | true =>
        rw [hp1] at hx
        simp only [Bool.toNat_true] at hx
        have h2 : p2 x = false := toNat_zero_eq_false _ (by omega)
        have h3 : p3 x = false := toNat_zero_eq_false _ (by omega)
        rw [List.filter_cons_of_pos hp1,
          List.filter_cons_of_neg (by simp [h2]),
          List.filter_cons_of_neg (by simp [h3]),
          List.cons_append, List.cons_append]
        exact iht.cons x
      | false =>
        rw [hp1] at hx
        simp only [Bool.toNat_false] at hx
        rw [List.filter_cons_of_neg (by simp [hp1])]
        cases hp2 : p2 x with
        | true =>
          rw [hp2] at hx
          simp only [Bool.toNat_true] at hx
          have h3 : p3 x = false := toNat_zero_eq_false _ (by omega)
          rw [List.filter_cons_of_pos hp2,
            List.filter_cons_of_neg (by simp [h3])]
          have hshape : t.filter p1 ++ (x :: t.filter p2) ++ t.filter p3
              = (t.filter p1) ++ x :: (t.filter p2 ++ t.filter p3) := by
            simp [List.append_assoc]
          rw [hshape]
          refine List.perm_middle.trans ?_
          refine List.Perm.cons x ?_
          simpa [List.append_assoc] using iht
        | false =>
          rw [hp2] at hx
          simp only [Bool.toNat_false] at hx
          have h3 : p3 x = true := by
            cases hp3 : p3 x
            · rw [hp3] at hx; simp at hx
            · rfl
          rw [List.filter_cons_of_neg (by simp [hp2]),
            List.filter_cons_of_pos h3]
          have hshape : t.filter p1 ++ t.filter p2 ++ (x :: t.filter p3)
              = (t.filter p1 ++ t.filter p2) ++ x :: t.filter p3 := rfl
          rw [hshape]
          exact List.perm_middle.trans (iht.cons x)

/-- When every current row matches at most one action, the current-side
projection of the merge is exactly the current table: no row is lost or
duplicated by the join. -/
theorem filterMap_cur_outerMerge (actions : List ActionRow) :
    ∀ current : List TPRow,
      (∀ c ∈ current, (actions.countP fun a => keyMatches c a) ≤ 1) →
      (outerMerge current actions).filterMap (·.cur) = current := by
  have hright : ∀ current : List TPRow,
      (((actions.filter fun a => current.all fun c => !keyMatches c a).map
        fun a => (⟨a.display_name, a.phrase, none, some a.action⟩ :
          MergedRow)).filterMap (·.cur)) = [] := by
    intro current
    rw [List.filterMap_map]
    apply List.filterMap_eq_nil_iff.mpr
    intro a _
    rfl
  intro current
  induction current with
  | nil =>
    intro _
    rw [outerMerge]
    simp [hright []]
  | cons c t ih =>
    intro h
    rw [outerMerge, List.filterMap_append, hright (c :: t),
      List.append_nil, List.flatMap_cons, List.filterMap_append]
    have hc1 := h c (List.mem_cons_self c t)
    have hbranch : ((if (actions.filter fun a => keyMatches c a).isEmpty then
        [(⟨c.display_name, c.phrase, some c, none⟩ : MergedRow)]
      else (actions.filter fun a => keyMatches c a).map fun a =>
        ⟨c.display_name, c.phrase, some c, some a.action⟩).filterMap
          (·.cur)) = [c] := by
      cases hms : (actions.filter fun a => keyMatches c a).isEmpty with
      | true => rw [if_pos rfl]; rfl
      | false =>
        simp only [Bool.false_eq_true, if_false]
        have hlen : (actions.filter fun a => keyMatches c a).length = 1 := by
          have hne := List.isEmpty_eq_false.mp hms
          have hge : 1 ≤ (actions.filter fun a => keyMatches c a).length := by
            cases hfe : (actions.filter fun a => keyMatches c a) with
            | nil => exact absurd hfe hne
            | cons y ys => simp [hfe]
          have hle : (actions.filter fun a => keyMatches c a).length ≤ 1 := by
            rw [← List.countP_eq_length_filter]
            exact hc1
          omega
        obtain ⟨a, ha⟩ := List.length_eq_one.mp hlen
        rw [ha]
        rfl
    have iht := ih fun y hy => h y (List.mem_cons_of_mem c hy)
    rw [outerMerge, List.filterMap_append, hright t, List.append_nil] at iht
    rw [hbranch, iht]
    rfl

/-! ### Claim theorems -/

/-- C6: on the spec's own scenario — current = one row (`Greeting`,
index 0, part 0, `hi`), actions = delete `hi` and add `yo` — the source
does not return updated = {index 1, part 0, `yo`} with two completed audit
rows: the delete consumes the only current row, the untouched set is
empty, and `list(set(untouched["name"]))[0]` (line 228) raises
`IndexError`. -/
theorem scenario_greeting_raises :
    reconcile c6acts c6cur = .error .indexError := by
  rfl

/-- C2 counterexample: with current = {`X`: index 0 `hi`, index 1 `bye`}
and actions = {add `bye` (a false addition), add `yo`}, the new row for
`yo` receives ordinal index 1 — `max` is taken over the *untouched* rows
only (index 0), not over all pre-existing rows of the intent — so the
fresh index collides with the intent's existing index 1 instead of being
strictly greater than it. -/
theorem fresh_index_not_above_existing :
    chooseName (untouchedOf c2acts c2cur) = some "pX"
    ∧ (newRowsOf "pX" (maxTPOf c2acts c2cur)
        (trueAddsOf c2acts c2cur)).map (·.training_phrase) = [1]
    ∧ ¬ (∀ r ∈ newRowsOf "pX" (maxTPOf c2acts c2cur)
          (trueAddsOf c2acts c2cur),
        ∀ u ∈ c2cur, u.display_name = r.display_name →
          u.training_phrase < r.training_phrase) := by
  refine ⟨by decide, by decide, ?_⟩
  intro h
  have := h ⟨"pX", "X", "yo", 1, 0, "yo", "", 1, ""⟩ (by decide)
    ⟨"pX", "X", "bye", 1, 0, "bye", "", 1, "idbye"⟩ (by decide) (by decide)
  exact absurd this (by decide)

/-- C3 counterexample: (a) with every required column present (the typed
tables cannot lack one), deleting the only current row still fails — with
the `IndexError` of line 228, not a `ValidationError`; (b) with two
candidate owning-intent names among the untouched rows (`pX`, `pY`) and a
true addition on a third intent, no `AmbiguousIntentError` is raised —
the call succeeds, silently using one candidate. -/
theorem errors_not_as_specified :
    reconcile e1acts c6cur = .error .indexError
    ∧ untouchedNames (untouchedOf e3acts e3cur) = ["pX", "pY"]
    ∧ (trueAddsOf e3acts e3cur).length = 1
    ∧ (reconcile e3acts e3cur).isOk = true := by
  exact ⟨rfl, rfl, rfl, rfl⟩

/-- C5 counterexample: a single delete action whose phrase `hi there` has
two parts (two current rows share the join key) produces two audit rows,
not one per action row. -/
theorem one_action_two_audit_rows :
    (reconcile c5acts c5cur).toOption.map (·.audit.length) = some 2
    ∧ c5acts.length = 1 := by
  exact ⟨rfl, rfl⟩

/-- C7 counterexample: actions = {add (`X`, `hi`) — a no-op false
addition, delete (`Y`, `bye`) — a true deletion}.  The first run drops
intent `X` (no completed action) from the updated table entirely, so
rerunning the same actions on that output turns the add into a *true*
addition: the second audit has a completed row, refuting idempotence. -/
theorem rerun_not_all_noop :
    (reconcile c7acts c7cur).toOption.map (·.updated) = some c7mid
    ∧ (reconcile c7acts c7mid).toOption.map
        (fun r => r.audit.countP fun t => t.completed == 1) = some 1 := by
  exact ⟨rfl, rfl⟩

/-- C9 counterexample: with current = {`X`: `hi`, `Y`: `yo`} and the
single no-op action add (`X`, `hi`), there are no true deletions (nothing
is dropped by deletion) yet the final updated table is empty — the
untouched row of `Y` and the false-addition row of `X` appear zero times
in updated ∪ dropped, not exactly once. -/
theorem rows_lost_from_updated :
    (reconcile c9acts c9cur).toOption.map (·.updated) = some []
    ∧ trueDelsOf c9acts c9cur = []
    ∧ (untouchedOf c9acts c9cur).length = 1
    ∧ (falseAddsOf c9acts c9cur).length = 1 := by
  exact ⟨rfl, rfl, rfl, rfl⟩

/-- C1: every merged join outcome falls into exactly one of the five
categories — untouched (current row, no matching action), false addition
(add matching an existing row), true addition (add with no matching
current row), true deletion (delete matching existing rows), false
deletion (delete with no matching current row).  Untouched and
false-addition current rows are copied unchanged into the assembled
updated table (`updated` before the actionable-intent restriction, which
claim C4 covers); true deletions contribute nothing to it, true additions
enter it only through their materialized rows. -/
theorem outcome_classification (actions : List ActionRow)
    (current : List TPRow) :
    ∀ j ∈ mergedOf actions current,
      categoryCount j = 1
      ∧ (isUntouched j = true →
          ∃ u, j.cur = some u
            ∧ (∀ x ∈ actions, keyMatches u x = false)
            ∧ ∀ nm, u ∈ assembledOf nm actions current)
      ∧ (isFalseAddition j = true →
          ∃ u, j.cur = some u
            ∧ (∃ x ∈ actions, x.action = .add ∧ keyMatches u x = true)
            ∧ ∀ nm, u ∈ assembledOf nm actions current)
      ∧ (isTrueAddition j = true →
          j.cur = none
            ∧ (∃ x ∈ actions, x.action = .add
                ∧ x.display_name = j.display_name ∧ x.phrase = j.phrase)
            ∧ ∀ u ∈ current,
                ¬(u.display_name = j.display_name ∧ u.phrase = j.phrase))
      ∧ (isTrueDeletion j = true →
          ∃ u, j.cur = some u
            ∧ ∃ x ∈ actions, x.action = .delete ∧ keyMatches u x = true)
      ∧ (isFalseDeletion j = true →
          j.cur = none
            ∧ (∃ x ∈ actions, x.action = .delete
                ∧ x.display_name = j.display_name ∧ x.phrase = j.phrase)
            ∧ ∀ u ∈ current,
                ¬(u.display_name = j.display_name ∧ u.phrase = j.phrase)) := by
  intro j hj
  have hmem := @mem_outerMerge current actions j hj
  refine ⟨?_, ?_, ?_, ?_, ?_, ?_⟩
  · -- exactly one category
    have hnotboth : ¬(j.act = none ∧ j.cur = none) := by
      rintro ⟨hact, hcur⟩
      rcases hmem with ⟨c, _, _, _, hc, _⟩ | ⟨a, _, _, _, _, ha, _⟩
      · rw [hcur] at hc; cases hc
      · rw [hact] at ha; cases ha
    cases hact : j.act with
    | none =>
      cases hcur : j.cur with
      | none => exact absurd ⟨hact, hcur⟩ hnotboth
      | some c =>
        simp [categoryCount, isUntouched, isTrueAddition, isFalseAddition,
          isTrueDeletion, isFalseDeletion, hact, hcur]
    | some a =>
      cases a <;> cases hcur : j.cur
        <;> simp [categoryCount, isUntouched, isTrueAddition, isFalseAddition,
          isTrueDeletion, isFalseDeletion, hact, hcur]
  · -- untouched
    intro hU
    have hact : j.act = none := by
      rw [isUntouched, Option.isNone_iff_eq_none] at hU
      exact hU
    rcases hmem with ⟨c, _, _, _, hc, hbr⟩ | ⟨a, _, _, _, _, ha, _⟩
    · rcases hbr with ⟨_, hall⟩ | ⟨a, _, _, hsome⟩
      · refine ⟨c, hc, hall, fun nm => ?_⟩
        rw [assembledOf, List.mem_append, List.mem_append]
        left
        left
        rw [List.mem_filterMap]
        refine ⟨j, ?_, by rw [hc]⟩
        rw [untouchedOf, List.mem_filter]
        exact ⟨hj, hU⟩
      · rw [hact] at hsome; cases hsome
    · rw [hact] at ha; cases ha
  · -- false addition
    intro hFA
    have hshape : j.act = some .add ∧ j.cur.isSome = true := by
      rw [isFalseAddition] at hFA
      cases hact : j.act with
      | none => rw [hact] at hFA; cases hFA
      | some a =>
        cases hcur : j.cur with
        | none => rw [hact, hcur] at hFA; cases a <;> cases hFA
        | some c =>
          cases a with
          | add => exact ⟨rfl, rfl⟩
          | delete => rw [hact, hcur] at hFA; cases hFA
    rcases hmem with ⟨c, _, _, _, hc, hbr⟩ | ⟨a, _, _, _, hcnone, _, _⟩
    · rcases hbr with ⟨hnone, _⟩ | ⟨a, ha, hkm, hsome⟩
      · rw [hshape.1] at hnone; cases hnone
      · have haact : a.action = .add := by
          have := hshape.1
          rw [hsome] at this
          exact Option.some_injective _ this
        refine ⟨c, hc, ⟨a, ha, haact, hkm⟩, fun nm => ?_⟩
        rw [assembledOf, List.mem_append, List.mem_append]
        left
        right
        rw [List.mem_filterMap]
        refine ⟨j, ?_, by rw [hc]⟩
        rw [falseAddsOf, List.mem_filter]
        exact ⟨hj, hFA⟩
    · rw [hcnone] at hshape
      cases hshape.2
  · -- true addition
    intro hTA
    have hshape : j.act = some .add ∧ j.cur = none := by
      rw [isTrueAddition] at hTA
      cases hact : j.act with
      | none => rw [hact] at hTA; cases hTA
      | some a =>
        cases hcur : j.cur with
        | none =>
          cases a with
          | add => exact ⟨rfl, rfl⟩
          | delete => rw [hact, hcur] at hTA; cases hTA
        | some c => rw [hact, hcur] at hTA; cases a <;> cases hTA
    rcases hmem with ⟨c, _, _, _, hc, _⟩ | ⟨a, ha, hdn, hph, _, hact, hall⟩
    · rw [hshape.2] at hc; cases hc
    · have haact : a.action = .add := by
        have := hshape.1
        rw [hact] at this
        exact Option.some_injective _ this
      refine ⟨hshape.2, ⟨a, ha, haact, hdn.symm, hph.symm⟩, ?_⟩
      intro u hu ⟨hudn, huph⟩
      have hfalse := hall u hu
      have htrue : keyMatches u a = true := by
        rw [keyMatches]
        have h1 : u.display_name = a.display_name := by rw [hudn, hdn]
        have h2 : u.phrase = a.phrase := by rw [huph, hph]
        rw [h1, h2]
        simp
      rw [htrue] at hfalse
      cases hfalse
  · -- true deletion
    intro hTD
    have hshape : j.act = some .delete ∧ j.cur.isSome = true := by
      rw [isTrueDeletion] at hTD
      cases hact : j.act with
      | none => rw [hact] at hTD; cases hTD
      | some a =>
        cases hcur : j.cur with
        | none => rw [hact, hcur] at hTD; cases a <;> cases hTD
        | some c =>
          cases a with
          | add => rw [hact, hcur] at hTD; cases hTD
          | delete => exact ⟨rfl, rfl⟩
    rcases hmem with ⟨c, _, _, _, hc, hbr⟩ | ⟨a, _, _, _, hcnone, _, _⟩
    · rcases hbr with ⟨hnone, _⟩ | ⟨a, ha, hkm, hsome⟩
      · rw [hshape.1] at hnone; cases hnone
      · have haact : a.action = .delete := by
          have := hshape.1
          rw [hsome] at this
          exact Option.some_injective _ this
        exact ⟨c, hc, a, ha, haact, hkm⟩
    · rw [hcnone] at hshape
      cases hshape.2
  · -- false deletion
    intro hFD
    have hshape : j.act = some .delete ∧ j.cur = none := by
      rw [isFalseDeletion] at hFD
      cases hact : j.act with
      | none => rw [hact] at hFD; cases hFD
      | some a =>
        cases hcur : j.cur with
        | none =>
          cases a with
          | add => rw [hact, hcur] at hFD; cases hFD
          | delete => exact ⟨rfl, rfl⟩
        | some c => rw [hact, hcur] at hFD; cases a <;> cases hFD
    rcases hmem with ⟨c, _, _, _, hc, _⟩ | ⟨a, ha, hdn, hph, _, hact, hall⟩
    · rw [hshape.2] at hc; cases hc
    · have haact : a.action = .delete := by
        have := hshape.1
        rw [hact] at this
        exact Option.some_injective _ this
      refine ⟨hshape.2, ⟨a, ha, haact, hdn.symm, hph.symm⟩, ?_⟩
      intro u hu ⟨hudn, huph⟩
      have hfalse := hall u hu
      have htrue : keyMatches u a = true := by
        rw [keyMatches]
        have h1 : u.display_name = a.display_name := by rw [hudn, hdn]
        have h2 : u.phrase = a.phrase := by rw [huph, hph]
        rw [h1, h2]
        simp
      rw [htrue] at hfalse
      cases hfalse

/-- C1 witness: on the `w7` input, the untouched row of `hi` falls into
exactly one category. -/
theorem outcome_classification_instance :
    categoryCount ⟨"X", "hi", some w7hi, none⟩ = 1 :=
  (outcome_classification w7acts w7cur
    ⟨"X", "hi", some w7hi, none⟩ (by decide)).1

/-- C2 (amended): the fresh ordinal indices of a successful call with at
least one true addition are assigned contiguously starting at
`(max ordinal index over the untouched rows) + 1`, globally across all
intents in join order, and each fresh index is strictly greater than the
ordinal index of every *untouched* row — but not necessarily greater than
indices of same-intent rows consumed by the join (see the
counterexample). -/
theorem fresh_indices_contiguous (actions : List ActionRow)
    (current : List TPRow) (out : ReconcileResult)
    (_hok : reconcile actions current = .ok out)
    (_hta : trueAddsOf actions current ≠ []) :
    ∀ nm : String,
      (newRowsOf nm (maxTPOf actions current)
        (trueAddsOf actions current)).map (·.training_phrase)
        = List.range' (maxTPOf actions current + 1)
            (trueAddsOf actions current).length
      ∧ ∀ r ∈ newRowsOf nm (maxTPOf actions current)
            (trueAddsOf actions current),
          ∀ j ∈ untouchedOf actions current, ∀ u, j.cur = some u →
            u.training_phrase < r.training_phrase := by
  intro nm
  refine ⟨newRowsOf_map_tp nm _ _, ?_⟩
  intro r hr j hjun u hu
  obtain ⟨j2, _, i, hi1, _, hrmat⟩ := mem_newRowsOf hr
  have hrtp : r.training_phrase = i := by rw [hrmat]; rfl
  have humem : u.training_phrase ∈ (untouchedOf actions current).filterMap
      fun j => j.cur.map (·.training_phrase) := by
    rw [List.mem_filterMap]
    exact ⟨j, hjun, by rw [hu]; rfl⟩
  have hle : u.training_phrase ≤ maxTPOf actions current :=
    le_foldl_max _ 0 _ humem
  rw [hrtp]
  omega

/-- C2 witness: on the `w7` input (one true addition, untouched max 0),
the fresh indices are exactly `range' 1 1 = [1]`. -/
theorem fresh_indices_contiguous_instance :
    (newRowsOf "pX" (maxTPOf w7acts w7cur)
      (trueAddsOf w7acts w7cur)).map (·.training_phrase)
      = List.range' (maxTPOf w7acts w7cur + 1)
          (trueAddsOf w7acts w7cur).length :=
  (fresh_indices_contiguous w7acts w7cur w7out1 (by rfl) (by decide) "pX").1

/-- C3 (amended): the routine raises neither a `ValidationError` nor an
`AmbiguousIntentError`.  It fails with an index error exactly when the
untouched set is empty (line 228, even when there is no true addition to
resolve a name for), and with a key error exactly when the untouched set
is nonempty but the actions table is empty (line 336, indexing the
column-less empty audit table); with several candidate owning-intent
names it does not fail but silently uses an arbitrary candidate. -/
theorem failure_modes (actions : List ActionRow) (current : List TPRow) :
    (reconcile actions current = .error .indexError
      ↔ untouchedOf actions current = [])
    ∧ (reconcile actions current = .error .keyError
      ↔ untouchedOf actions current ≠ [] ∧ actions = [])
    ∧ ((∃ e, reconcile actions current = .error e)
      ↔ untouchedOf actions current = [] ∨ actions = []) := by
  cases hch : chooseName (untouchedOf actions current) with
  | none =>
    have hun : untouchedOf actions current = [] :=
      chooseName_eq_none_iff.mp hch
    have hrec : reconcile actions current = .error .indexError := by
      rw [reconcile, hch]
    refine ⟨⟨fun _ => hun, fun _ => hrec⟩, ?_, ?_⟩
    · constructor
      · intro h
        rw [hrec] at h
        cases h
      · rintro ⟨hne, _⟩
        exact absurd hun hne
    · exact ⟨fun _ => Or.inl hun, fun _ => ⟨.indexError, hrec⟩⟩
  | some nm =>
    have hun : untouchedOf actions current ≠ [] := by
      intro h
      rw [chooseName_eq_none_iff.mpr h] at hch
      cases hch
    cases hemp : (auditAll actions current).isEmpty with
    | true =>
      have hacts : actions = [] :=
        auditAll_eq_nil_iff.mp (List.isEmpty_iff.mp hemp)
      have hrec : reconcile actions current = .error .keyError := by
        rw [reconcile, hch, hemp]
        rfl
      refine ⟨?_, ⟨fun _ => ⟨hun, hacts⟩, fun _ => hrec⟩, ?_⟩
      · constructor
        · intro h
          rw [hrec] at h
          cases h
        · intro h
          exact absurd h hun
      · exact ⟨fun _ => Or.inr hacts, fun _ => ⟨.keyError, hrec⟩⟩
    | false =>
      have hacts : actions ≠ [] := by
        intro h
        rw [List.isEmpty_eq_false] at hemp
        exact hemp (auditAll_eq_nil_iff.mpr h)
      have hrec : reconcile actions current
          = .ok ⟨updatedOf nm actions current, auditAll actions current⟩ := by
        rw [reconcile, hch, hemp]
        rfl
      refine ⟨?_, ?_, ?_⟩
      · constructor
        · intro h
          rw [hrec] at h
          cases h
        · intro h
          exact absurd h hun
      · constructor
        · intro h
          rw [hrec] at h
          cases h
        · rintro ⟨_, h⟩
          exact absurd h hacts
      · constructor
        · rintro ⟨e, he⟩
          rw [hrec] at he
          cases he
        · rintro (h | h)
          · exact absurd h hun
          · exact absurd h hacts

/-- C8: each true addition materializes as exactly one row (one per
true-addition join row) with part index 0, the action's phrase as the
literal text, no parameter binding, repeat count 1 and an empty phrase
protocol identifier. -/
theorem true_addition_materialization (nm : String) (mx : Nat)
    (actions : List ActionRow) (current : List TPRow) :
    (newRowsOf nm mx (trueAddsOf actions current)).length
      = (trueAddsOf actions current).length
    ∧ ∀ r ∈ newRowsOf nm mx (trueAddsOf actions current),
        r.part = 0 ∧ r.text = r.phrase ∧ r.parameter_id = ""
          ∧ r.repeat_count = 1 ∧ r.id = ""
          ∧ ∃ j ∈ trueAddsOf actions current,
              r.display_name = j.display_name ∧ r.text = j.phrase := by
  refine ⟨newRowsOf_length nm mx _, ?_⟩
  intro r hr
  obtain ⟨j, hj, i, _, _, hrmat⟩ := mem_newRowsOf hr
  subst hrmat
  exact ⟨rfl, rfl, rfl, rfl, rfl, j, hj, rfl, rfl⟩

/-- C10: all true-addition rows of a call receive one and the same intent
protocol identifier: it is a member of the set of `name` values among the
untouched rows, and is a function of the untouched rows alone — in
particular it is not determined by the individual addition's own intent
display name (the witness assigns intent `X`'s protocol name `pX` to an
addition targeting intent `Z`). -/
theorem addition_name_from_untouched (actions : List ActionRow)
    (current : List TPRow) (nm : String)
    (hch : chooseName (untouchedOf actions current) = some nm) :
    (∀ mx : Nat, ∀ r ∈ newRowsOf nm mx (trueAddsOf actions current),
        r.name = nm)
    ∧ nm ∈ untouchedNames (untouchedOf actions current)
    ∧ ∀ (a2 : List ActionRow) (c2 : List TPRow),
        untouchedOf a2 c2 = untouchedOf actions current →
        chooseName (untouchedOf a2 c2) = some nm := by
  refine ⟨?_, ?_, ?_⟩
  · intro mx r hr
    obtain ⟨j, _, i, _, _, hrmat⟩ := mem_newRowsOf hr
    rw [hrmat]
    rfl
  · rw [chooseName] at hch
    exact List.mem_of_mem_head? (by rw [hch]; rfl)
  · intro a2 c2 he
    rw [chooseName, he]
    exact hch

/-- C10 witness: with untouched rows spanning intents `X` (name `pX`) and
`Y` (name `pY`) and an addition targeting intent `Z`, the chosen name
`pX` is one of the untouched candidates, not anything of `Z`'s. -/
theorem addition_name_instance :
    "pX" ∈ untouchedNames (untouchedOf e3acts e3cur) :=
  (addition_name_from_untouched e3acts e3cur "pX" (by rfl)).2.1

/-- C4: a row is in the final updated table exactly when it is in the
assembled table and its intent has at least one completed (`completed=1`)
audit row in this call; intents whose actions were all no-ops — and
intents with no actions at all — are excluded entirely, untouched rows
included. -/
theorem updated_restricted_to_actionable (actions : List ActionRow)
    (current : List TPRow) (out : ReconcileResult) (nm : String)
    (hok : reconcile actions current = .ok out)
    (hch : chooseName (untouchedOf actions current) = some nm) :
    ∀ r : TPRow,
      r ∈ out.updated
        ↔ r ∈ assembledOf nm actions current
          ∧ ∃ t ∈ out.audit, t.completed = 1
            ∧ t.display_name = r.display_name := by
  obtain ⟨nm2, hch2, _, hout⟩ := reconcile_ok_elim hok
  have hnm : nm2 = nm := Option.some_injective _ (hch2.symm.trans hch)
  subst hnm
  subst hout
  intro r
  show r ∈ updatedOf nm2 actions current ↔ _
  rw [updatedOf, List.mem_filter]
  constructor
  · rintro ⟨hassem, hcont⟩
    refine ⟨hassem, ?_⟩
    have hmem2 : r.display_name ∈ actionableOf actions current :=
      List.elem_iff.mp hcont
    rw [actionableOf, List.mem_map] at hmem2
    obtain ⟨t, ht, htdn⟩ := hmem2
    rw [List.mem_filter] at ht
    exact ⟨t, ht.1, by simpa using ht.2, htdn⟩
  · rintro ⟨hassem, t, ht, hc1, hdn⟩
    refine ⟨hassem, ?_⟩
    apply List.elem_iff.mpr
    rw [actionableOf, List.mem_map]
    exact ⟨t, List.mem_filter.mpr ⟨ht, by simpa using hc1⟩, hdn⟩

/-- C4 witness: on the `w7` input the untouched `hi` row of the
actionable intent `X` is kept in the final updated table. -/
theorem updated_restricted_instance : w7hi ∈ w7out1.updated :=
  (updated_restricted_to_actionable w7acts w7cur w7out1 "pX"
    (by rfl) (by rfl) w7hi).mpr
    ⟨by decide,
     ⟨"X", "bye", 1, "true deletion", "bye removed from X"⟩,
     by decide, rfl, rfl⟩

/-- The shape of a true-addition row. -/
theorem isTrueAddition_shape {j : MergedRow}
    (h : isTrueAddition j = true) :
    j.act = some TPAct.add ∧ j.cur = none := by
  rcases j with ⟨dn, ph, cur, act⟩
  cases act with
  | none => cases cur <;> cases h
  | some a =>
    cases a with
    | add =>
      cases cur with
      | none => exact ⟨rfl, rfl⟩
      | some c => cases h
    | delete => cases cur <;> cases h

/-- The shape of a false-addition row. -/
theorem isFalseAddition_shape {j : MergedRow}
    (h : isFalseAddition j = true) :
    ∃ c, j.act = some TPAct.add ∧ j.cur = some c := by
  rcases j with ⟨dn, ph, cur, act⟩
  cases act with
  | none => cases cur <;> cases h
  | some a =>
    cases a with
    | add =>
      cases cur with
      | none => cases h
      | some c => exact ⟨c, rfl, rfl⟩
    | delete => cases cur <;> cases h

/-- The shape of a true-deletion row. -/
theorem isTrueDeletion_shape {j : MergedRow}
    (h : isTrueDeletion j = true) :
    ∃ c, j.act = some TPAct.delete ∧ j.cur = some c := by
  rcases j with ⟨dn, ph, cur, act⟩
  cases act with
  | none => cases cur <;> cases h
  | some a =>
    cases a with
    | add => cases cur <;> cases h
    | delete =>
      cases cur with
      | none => cases h
      | some c => exact ⟨c, rfl, rfl⟩

/-- The shape of a false-deletion row. -/
theorem isFalseDeletion_shape {j : MergedRow}
    (h : isFalseDeletion j = true) :
    j.act = some TPAct.delete ∧ j.cur = none := by
  rcases j with ⟨dn, ph, cur, act⟩
  cases act with
  | none => cases cur <;> cases h
  | some a =>
    cases a with
    | add => cases cur <;> cases h
    | delete =>
      cases cur with
      | none => exact ⟨rfl, rfl⟩
      | some c => cases h

/-- A current row surviving as untouched matches no action at all. -/
theorem mem_untouched_cur {actions : List ActionRow} {current : List TPRow}
    {r : TPRow}
    (h : r ∈ (untouchedOf actions current).filterMap (·.cur)) :
    ∀ x ∈ actions, keyMatches r x = false := by
  rw [List.mem_filterMap] at h
  obtain ⟨j, hj, hcur⟩ := h
  rw [untouchedOf, List.mem_filter] at hj
  have hact : j.act = none := by
    have := hj.2
    rw [isUntouched, Option.isNone_iff_eq_none] at this
    exact this
  rcases mem_outerMerge hj.1 with ⟨c, _, _, _, hc, hbr⟩ | ⟨a, _, _, _, _, ha, _⟩
  · rcases hbr with ⟨_, hall⟩ | ⟨x, _, _, hsome⟩
    · have hcr : c = r := by
        rw [hc] at hcur
        exact Option.some_injective _ hcur
      subst hcr
      exact hall
    · rw [hact] at hsome
      cases hsome
  · rw [hact] at ha
    cases ha

/-- A current row copied through as a false addition is matched by some
add action. -/
theorem mem_falseAdd_cur {actions : List ActionRow} {current : List TPRow}
    {r : TPRow}
    (h : r ∈ (falseAddsOf actions current).filterMap (·.cur)) :
    ∃ x ∈ actions, x.action = TPAct.add ∧ keyMatches r x = true := by
  rw [List.mem_filterMap] at h
  obtain ⟨j, hj, hcur⟩ := h
  rw [falseAddsOf, List.mem_filter] at hj
  obtain ⟨c0, hactadd, _⟩ := isFalseAddition_shape hj.2
  rcases mem_outerMerge hj.1 with ⟨c, _, _, _, hc, hbr⟩ | ⟨a, _, _, _, hcn, _, _⟩
  · rcases hbr with ⟨hnone, _⟩ | ⟨x, hx, hkm, hsome⟩
    · rw [hactadd] at hnone
      cases hnone
    · have hxact : x.action = TPAct.add :=
        Option.some_injective _ (hsome.symm.trans hactadd)
      have hcr : c = r := by
        rw [hc] at hcur
        exact Option.some_injective _ hcur
      subst hcr
      exact ⟨x, hx, hxact, hkm⟩
  · rw [hcn] at hcur
    cases hcur

/-- A materialized true-addition row carries the join keys of some add
action that matched no current row. -/
theorem mem_newRows_key {nm : String} {mx : Nat} {actions : List ActionRow}
    {current : List TPRow} {r : TPRow}
    (h : r ∈ newRowsOf nm mx (trueAddsOf actions current)) :
    ∃ x ∈ actions, x.action = TPAct.add
      ∧ r.display_name = x.display_name ∧ r.phrase = x.phrase := by
  obtain ⟨j, hj, i, _, _, hrmat⟩ := mem_newRowsOf h
  rw [trueAddsOf, List.mem_filter] at hj
  have hshape := isTrueAddition_shape hj.2
  rcases mem_outerMerge hj.1 with ⟨c, _, _, _, hc, _⟩
    | ⟨x, hx, hdn, hph, _, hacteq, _⟩
  · rw [hshape.2] at hc
    cases hc
  · have hxact : x.action = TPAct.add :=
      Option.some_injective _ (hacteq.symm.trans hshape.1)
    subst hrmat
    exact ⟨x, hx, hxact, hdn, hph⟩

/-- The four outcome categories cover exactly the merged rows that carry
an action. -/
theorem category_covers_actioned (j : MergedRow) :
    (isTrueAddition j).toNat + (isFalseAddition j).toNat
      + (isTrueDeletion j).toNat + (isFalseDeletion j).toNat
      = (j.act.isSome).toNat := by
  rcases j with ⟨dn, ph, cur, act⟩
  cases act with
  | none => cases cur <;> rfl
  | some a => cases a <;> cases cur <;> rfl

/-- C5 (amended): every merged join row carrying an action yields exactly
one audit row (so the audit has one row per join outcome, not per action
row: an action whose key matches several current rows yields several);
`completed=1` rows count the true-addition plus true-deletion join rows,
`completed=0` rows the false ones — mismatches become no-op audit rows,
never errors.  When every action matches at most one current row, the
audit does have exactly one row per action row. -/
theorem audit_row_accounting (actions : List ActionRow)
    (current : List TPRow) (out : ReconcileResult)
    (hok : reconcile actions current = .ok out) :
    out.audit.length
        = (mergedOf actions current).countP (fun j => j.act.isSome)
    ∧ out.audit.countP (fun t => t.completed == 1)
        = (trueAddsOf actions current).length
          + (trueDelsOf actions current).length
    ∧ out.audit.countP (fun t => t.completed == 0)
        = (falseAddsOf actions current).length
          + (falseDelsOf actions current).length
    ∧ ((∀ a ∈ actions, (current.countP fun c => keyMatches c a) ≤ 1) →
        out.audit.length = actions.length) := by
  obtain ⟨nm, _, _, hout⟩ := reconcile_ok_elim hok
  subst hout
  have hlen : (auditAll actions current).length
      = (mergedOf actions current).countP fun j => j.act.isSome := by
    rw [auditAll]
    simp only [List.length_append, List.length_map]
    rw [trueAddsOf, falseAddsOf, trueDelsOf, falseDelsOf,
      ← List.countP_eq_length_filter, ← List.countP_eq_length_filter,
      ← List.countP_eq_length_filter, ← List.countP_eq_length_filter]
    exact countP_four_partition _ _ _ _ _ _
      fun j _ => category_covers_actioned j
  refine ⟨hlen, ?_, ?_, ?_⟩
  · show (auditAll actions current).countP (fun t => t.completed == 1) = _
    rw [auditAll]
    simp only [List.countP_append, List.countP_map]
    have h1 : ((fun t : AuditRow => t.completed == 1) ∘ mkTrueAddAudit)
        = fun _ => true := rfl
    have h2 : ((fun t : AuditRow => t.completed == 1) ∘ mkFalseAddAudit)
        = fun _ => false := rfl
    have h3 : ((fun t : AuditRow => t.completed == 1) ∘ mkTrueDelAudit)
        = fun _ => true := rfl
    have h4 : ((fun t : AuditRow => t.completed == 1) ∘ mkFalseDelAudit)
        = fun _ => false := rfl
    rw [h1, h2, h3, h4, List.countP_true, List.countP_false]
    simp only [Function.const]
    omega
  · show (auditAll actions current).countP (fun t => t.completed == 0) = _
    rw [auditAll]
    simp only [List.countP_append, List.countP_map]
    have h1 : ((fun t : AuditRow => t.completed == 0) ∘ mkTrueAddAudit)
        = fun _ => false := rfl
    have h2 : ((fun t : AuditRow => t.completed == 0) ∘ mkFalseAddAudit)
        = fun _ => true := rfl
    have h3 : ((fun t : AuditRow => t.completed == 0) ∘ mkTrueDelAudit)
        = fun _ => false := rfl
    have h4 : ((fun t : AuditRow => t.completed == 0) ∘ mkFalseDelAudit)
        = fun _ => true := rfl
    rw [h1, h2, h3, h4, List.countP_true, List.countP_false]
    simp only [Function.const]
    omega
  · intro hone
    show (auditAll actions current).length = actions.length
    rw [hlen, mergedOf, countP_actioned_outerMerge]
    apply sum_map_one
    intro a ha
    have := hone a ha
    omega

/-- C5 witness: the `w7` run's audit length equals the number of
action-carrying join rows. -/
theorem audit_row_accounting_instance :
    w7out1.audit.length
      = (mergedOf w7acts w7cur).countP fun j => j.act.isSome :=
  (audit_row_accounting w7acts w7cur w7out1 (by rfl)).1

/-- The untouched, false-addition and true-deletion categories partition
the merged rows that carry a current row. -/
theorem categories_cover_cur (actions : List ActionRow)
    (current : List TPRow) :
    ∀ j ∈ mergedOf actions current,
      (isUntouched j).toNat + (isFalseAddition j).toNat
        + (isTrueDeletion j).toNat = (j.cur.isSome).toNat := by
  intro j hj
  obtain ⟨dn, ph, cur, act⟩ := j
  cases act with
  | some a => cases a <;> cases cur <;> rfl
  | none =>
    cases cur with
    | some c => rfl
    | none =>
      have hsome := cur_isSome_of_act_none hj rfl
      cases hsome

/-- C9 (amended): when every current row's key matches at most one action
row, the untouched rows, the false-addition rows (both copied into the
assembled table) and the dropped true-deletion rows together are a
permutation of the current table — every current row is accounted for
exactly once across the assembled table before the actionable-intent
restriction (claim C4's filter can still drop rows afterwards, see the
counterexample) plus the deleted rows; the materialized true-addition
rows are the only other rows of the assembled table. -/
theorem row_conservation (actions : List ActionRow) (current : List TPRow)
    (hone : ∀ c ∈ current, (actions.countP fun a => keyMatches c a) ≤ 1) :
    ((untouchedOf actions current).filterMap (·.cur)
      ++ (falseAddsOf actions current).filterMap (·.cur)
      ++ (trueDelsOf actions current).filterMap (·.cur)).Perm current
    ∧ ∀ nm, assembledOf nm actions current
        = (untouchedOf actions current).filterMap (·.cur)
          ++ (falseAddsOf actions current).filterMap (·.cur)
          ++ newRowsOf nm (maxTPOf actions current)
              (trueAddsOf actions current) := by
  refine ⟨?_, fun nm => rfl⟩
  have hperm := filter_three_partition_perm (mergedOf actions current)
    isUntouched isFalseAddition isTrueDeletion (fun j => j.cur.isSome)
    (categories_cover_cur actions current)
  have hperm2 := hperm.filterMap (·.cur)
  rw [List.filterMap_append, List.filterMap_append] at hperm2
  rw [filterMap_cur_filter_isSome] at hperm2
  have heq : (mergedOf actions current).filterMap (·.cur) = current :=
    filterMap_cur_outerMerge actions current hone
  rw [heq] at hperm2
  rw [untouchedOf, falseAddsOf, trueDelsOf]
  exact hperm2

/-- C9 witness: on the `w7` input the three current-side category
projections are a permutation of the current table. -/
theorem row_conservation_instance :
    ((untouchedOf w7acts w7cur).filterMap (·.cur)
      ++ (falseAddsOf w7acts w7cur).filterMap (·.cur)
      ++ (trueDelsOf w7acts w7cur).filterMap (·.cur)).Perm w7cur :=
  (row_conservation w7acts w7cur (by decide)).1

/-- C7 (amended): rerunning the identical actions on the previous updated
output is all-no-op, provided no two action rows share a
(display name, phrase) key and every action's intent retained at least
one completed action in the first run (otherwise the actionable-intent
restriction already dropped that intent's rows and a re-add would be a
*true* addition — see the counterexample); whenever the second run
returns at all, every audit row it produces has `completed = 0`. -/
theorem rerun_all_noop (actions : List ActionRow) (current : List TPRow)
    (out1 out2 : ReconcileResult)
    (hdist : actions.Pairwise fun x y =>
      ¬(x.display_name = y.display_name ∧ x.phrase = y.phrase))
    (h1 : reconcile actions current = .ok out1)
    (hact : ∀ x ∈ actions, ∃ t ∈ out1.audit,
      t.completed = 1 ∧ t.display_name = x.display_name)
    (h2 : reconcile actions out1.updated = .ok out2) :
    ∀ t ∈ out2.audit, t.completed = 0 := by
  obtain ⟨nm1, hch1, _, hout1⟩ := reconcile_ok_elim h1
  have hupd1 : out1.updated = updatedOf nm1 actions current := by rw [hout1]
  have haud1 : out1.audit = auditAll actions current := by rw [hout1]
  rw [hupd1] at h2
  rw [haud1] at hact
  have hsym : Symmetric (fun x y : ActionRow =>
      ¬(x.display_name = y.display_name ∧ x.phrase = y.phrase)) := by
    intro x y hxy hyx
    exact hxy ⟨hyx.1.symm, hyx.2.symm⟩
  -- Fact A: no delete action's key survives into the first updated table.
  have factA : ∀ r ∈ updatedOf nm1 actions current, ∀ d ∈ actions,
      d.action = TPAct.delete → keyMatches r d = false := by
    intro r hr d hd hdel
    have hassem : r ∈ assembledOf nm1 actions current :=
      (List.mem_filter.mp hr).1
    rw [assembledOf, List.mem_append, List.mem_append] at hassem
    cases hkm : keyMatches r d with
    | false => rfl
    | true =>
      exfalso
      simp only [keyMatches, Bool.and_eq_true, beq_iff_eq] at hkm
      rcases hassem with (hun | hfa) | hnew
      · have hfalse := mem_untouched_cur hun d hd
        have htrue : keyMatches r d = true := by
          simp only [keyMatches, Bool.and_eq_true, beq_iff_eq]
          exact hkm
        rw [htrue] at hfalse
        cases hfalse
      · obtain ⟨x, hx, hxadd, hxkm⟩ := mem_falseAdd_cur hfa
        simp only [keyMatches, Bool.and_eq_true, beq_iff_eq] at hxkm
        have hxd : x ≠ d := by
          intro hxd
          rw [hxd, hdel] at hxadd
          cases hxadd
        exact (List.Pairwise.forall hsym hdist hx hd hxd)
          ⟨hxkm.1.symm.trans hkm.1, hxkm.2.symm.trans hkm.2⟩
      · obtain ⟨x, hx, hxadd, hdn, hph⟩ := mem_newRows_key hnew
        have hxd : x ≠ d := by
          intro hxd
          rw [hxd, hdel] at hxadd
          cases hxadd
        exact (List.Pairwise.forall hsym hdist hx hd hxd)
          ⟨hdn.symm.trans hkm.1, hph.symm.trans hkm.2⟩
  -- Fact B: every add action's key is present in the first updated table.
  have factB : ∀ x ∈ actions, x.action = TPAct.add →
      ∃ r ∈ updatedOf nm1 actions current, keyMatches r x = true := by
    intro x hx hxadd
    have hcont : (actionableOf actions current).contains x.display_name
        = true := by
      obtain ⟨t, ht, hc1, hdn⟩ := hact x hx
      apply List.elem_iff.mpr
      rw [actionableOf, List.mem_map]
      exact ⟨t, List.mem_filter.mpr ⟨ht, by simpa using hc1⟩, hdn⟩
    by_cases hmatch : ∃ c ∈ current, keyMatches c x = true
    · obtain ⟨c, hc, hm⟩ := hmatch
      refine ⟨c, ?_, hm⟩
      rw [updatedOf, List.mem_filter]
      constructor
      · rw [assembledOf, List.mem_append, List.mem_append]
        left
        right
        rw [List.mem_filterMap]
        refine ⟨⟨c.display_name, c.phrase, some c, some x.action⟩, ?_, rfl⟩
        rw [falseAddsOf, List.mem_filter]
        refine ⟨pair_mem_outerMerge hc hx hm, ?_⟩
        rw [hxadd]
        rfl
      · have hdn : c.display_name = x.display_name := by
          simp only [keyMatches, Bool.and_eq_true, beq_iff_eq] at hm
          exact hm.1
        rw [hdn]
        exact hcont
    · have hall : ∀ c ∈ current, keyMatches c x = false := by
        intro c hc
        cases hkm : keyMatches c x with
        | false => rfl
        | true => exact absurd ⟨c, hc, hkm⟩ hmatch
      have hta : (⟨x.display_name, x.phrase, none, some x.action⟩ :
          MergedRow) ∈ trueAddsOf actions current := by
        rw [trueAddsOf, List.mem_filter]
        refine ⟨unmatched_mem_outerMerge hx hall, ?_⟩
        rw [hxadd]
        rfl
      obtain ⟨r, hr, hrdn, hrph⟩ := @newRowsOf_covers nm1
        (maxTPOf actions current) (trueAddsOf actions current)
        ⟨x.display_name, x.phrase, none, some x.action⟩ hta
      refine ⟨r, ?_, ?_⟩
      · rw [updatedOf, List.mem_filter]
        constructor
        · rw [assembledOf, List.mem_append]
          right
          exact hr
        · rw [hrdn]
          exact hcont
      · simp only [keyMatches, Bool.and_eq_true, beq_iff_eq]
        exact ⟨hrdn, hrph⟩
  -- Second run: no true addition and no true deletion can arise.
  obtain ⟨nm2, hch2, _, hout2⟩ := reconcile_ok_elim h2
  have haud2 : out2.audit
      = auditAll actions (updatedOf nm1 actions current) := by rw [hout2]
  intro t ht
  rw [haud2, auditAll, List.mem_append, List.mem_append,
    List.mem_append] at ht
  rcases ht with ((hta | hfa) | htd) | hfd
  · exfalso
    rw [List.mem_map] at hta
    obtain ⟨j, hj, _⟩ := hta
    rw [trueAddsOf, List.mem_filter] at hj
    have hshape := isTrueAddition_shape hj.2
    rcases @mem_outerMerge (updatedOf nm1 actions current) actions j hj.1
      with ⟨c, _, _, _, hc, _⟩ | ⟨x, hx, _, _, _, hacteq, hall⟩
    · rw [hshape.2] at hc
      cases hc
    · have hxadd : x.action = TPAct.add :=
        Option.some_injective _ (hacteq.symm.trans hshape.1)
      obtain ⟨r, hr, hkm⟩ := factB x hx hxadd
      have := hall r hr
      rw [hkm] at this
      cases this
  · rw [List.mem_map] at hfa
    obtain ⟨j, _, hjt⟩ := hfa
    rw [← hjt]
    rfl
  · exfalso
    rw [List.mem_map] at htd
    obtain ⟨j, hj, _⟩ := htd
    rw [trueDelsOf, List.mem_filter] at hj
    obtain ⟨c0, hactdel, hcur⟩ := isTrueDeletion_shape hj.2
    rcases @mem_outerMerge (updatedOf nm1 actions current) actions j hj.1
      with ⟨c, hcU, _, _, hc, hbr⟩ | ⟨x, _, _, _, hcn, _, _⟩
    · rcases hbr with ⟨hnone, _⟩ | ⟨x, hx, hkm, hsome⟩
      · rw [hactdel] at hnone
        cases hnone
      · have hxdel : x.action = TPAct.delete :=
          Option.some_injective _ (hsome.symm.trans hactdel)
        have := factA c hcU x hx hxdel
        rw [hkm] at this
        cases this
    · rw [hcn] at hcur
      cases hcur
  · rw [List.mem_map] at hfd
    obtain ⟨j, _, hjt⟩ := hfd
    rw [← hjt]
    rfl

/-- C7 witness: on the `w7` input (a true addition and a true deletion on
one intent, rerun on the first output) the rerun's false-addition audit
row for `yo` is a no-op. -/
theorem rerun_all_noop_instance :
    (⟨"X", "yo", 0, "false addition", "yo already in X"⟩ : AuditRow).completed
      = 0 :=
  rerun_all_noop w7acts w7cur w7out1 w7out2 (by decide) (by rfl)
    (by decide) (by rfl)
    ⟨"X", "yo", 0, "false addition", "yo already in X"⟩ (by decide)
